import Mathlib

/-!
# Verification of `regulator.py` (projectdiscovery/alterx)

A shallow embedding of the DNS pattern-induction engine in `src/regulator.py`
and proofs about it.  Hostnames and patterns are modelled as `String` /
`List Char`; Python dicts keyed by strings become association lists with
last-write-wins lookup; Python `set`s become insertion-ordered duplicate-free
lists (Python's set iteration order is implementation defined, so we fix the
deterministic first-insertion order).  External collaborators (the public
suffix splitter `tldextract`, the Levenshtein oracle `editdistance`, the
cardinality oracle `DankEncoder`) are modelled from their spec contracts:
the Levenshtein oracle as the standard dynamic-programming edit distance,
the cardinality oracle as an opaque function parameter.
-/

set_option linter.unusedVariables false
set_option maxRecDepth 40000

namespace Regulator

/-! ## Character and list utilities -/

/-- Digit value of a character (meaningful for `'0'..'9'`). -/
def dval (c : Char) : Nat := c.toNat - 48

/-- The decimal digit character for `0..9` (Python `f'{d}'` for a single digit). -/
def digitChar : Nat → Char
  | 0 => '0' | 1 => '1' | 2 => '2' | 3 => '3' | 4 => '4'
  | 5 => '5' | 6 => '6' | 7 => '7' | 8 => '8' | _ => '9'

/-- `leadsWith n s` is true iff `n` is an initial segment of `s`
(Python `s.startswith(n)`, used by `str.replace`). -/
def leadsWith : List Char → List Char → Bool
  | [], _ => true
  | _ :: _, [] => false
  | a :: as, b :: bs => a = b && leadsWith as bs

/-- Membership test by propositional equality (Python `x in l`). -/
def memB {α : Type} [DecidableEq α] (l : List α) (x : α) : Bool :=
  l.any (fun y => y = x)

/-- `hasChar g c` is Python `c in g` for a string `g`. -/
def hasChar (g : List Char) (c : Char) : Bool := g.any (fun d => d = c)

/-- Python `s.split(sep)` for a single-character separator: always returns at
least one (possibly empty) piece. -/
def splitOnChar (sep : Char) : List Char → List (List Char)
  | [] => [[]]
  | c :: rest =>
    let r := splitOnChar sep rest
    if c = sep then [] :: r
    else
      match r with
      | [] => [[c]]
      | h :: t => (c :: h) :: t

/-- Python `'|'.join(pieces)`. -/
def joinBar : List (List Char) → List Char
  | [] => []
  | [t] => t
  | t :: ts => t ++ '|' :: joinBar ts

/-- One step of Python `str.replace` with an explicit fuel (the fuel is always
instantiated with the length of the scanned string, which suffices because each
step consumes at least one character).  Replaces every non-overlapping
occurrence of `needle`, scanning left to right. -/
def replaceFuel (needle repl : List Char) : Nat → List Char → List Char
  | 0, s => s
  | _ + 1, [] => []
  | fuel + 1, c :: cs =>
    if needle ≠ [] ∧ leadsWith needle (c :: cs) = true then
      repl ++ replaceFuel needle repl fuel ((c :: cs).drop needle.length)
    else
      c :: replaceFuel needle repl fuel cs

/-- Python `s.replace(needle, repl)` (for the nonempty needles this program uses). -/
def listReplace (s needle repl : List Char) : List Char :=
  replaceFuel needle repl s.length s

/-- Insertion-ordered deduplication: the fixed-order model of filling a Python
`set` by repeated `add` and then iterating it. -/
def dedupFirst {α : Type} [DecidableEq α] (l : List α) : List α :=
  l.foldl (fun acc t => if memB acc t then acc else acc ++ [t]) []

/-! ## External collaborator: Levenshtein edit distance

Modelled from the spec (§6): `editdistance.eval` is the standard Levenshtein
distance, computed here with the textbook dynamic-programming row recurrence. -/

/-- Continue one DP row: `prev` holds the previous row from the current column
on, `cur` the value just computed for the new row. -/
def levGo (c : Char) : List Char → List Nat → Nat → List Nat
  | b :: bs, pj :: pj1 :: prest, cur =>
    let next := Nat.min (Nat.min (cur + 1) (pj1 + 1)) (pj + (if c = b then 0 else 1))
    next :: levGo c bs (pj1 :: prest) next
  | _, _, _ => []

/-- One DP row update for character `c` of the first string. -/
def levRow (c : Char) (b : List Char) (prev : List Nat) : List Nat :=
  match prev with
  | [] => []
  | p0 :: _ => (p0 + 1) :: levGo c b prev (p0 + 1)

/-- Modelled from the spec: the external Levenshtein edit-distance collaborator
(`editdistance.eval`), as the standard dynamic program. -/
def lev (a b : String) : Nat :=
  (a.toList.foldl (fun prev c => levRow c b.toList prev) (List.range (b.length + 1))).getLastD 0

/-! ## Distance table (`main`, lines 228-229, and the lookup in `edit_closures`) -/

/-- `itertools.combinations_with_replacement(l, 2)` for a list `l`: all pairs
`(l[i], l[j])` with `i ≤ j`, in iteration order. -/
def pairsCWR : List String → List (String × String)
  | [] => []
  | a :: rest => (a :: rest).map (fun b => (a, b)) ++ pairsCWR rest

/-- The `MEMO` dict: keys are the raw concatenations `s ++ t`.  We prepend each
write, so a head-first lookup sees the most recent write (Python dict
overwrite semantics). -/
def buildMemo (hosts : List String) : List (String × Nat) :=
  (pairsCWR hosts).foldl (fun m p => (p.1 ++ p.2, lev p.1 p.2) :: m) []

/-- Head-first find: the latest write to a key wins. -/
def memoFind (m : List (String × Nat)) (k : String) : Option Nat :=
  (m.find? (fun e => e.1 = k)).map (fun e => e.2)

/-- The lookup in `edit_closures` line 30:
`MEMO[a+b] if a+b in MEMO else MEMO[b+a]` (a missing second key raises in
Python; here it surfaces as `none`). -/
def lookupDist (m : List (String × Nat)) (a b : String) : Option Nat :=
  match memoFind m (a ++ b) with
  | some d => some d
  | none => memoFind m (b ++ a)

/-- Total wrapper used when the table is known to contain the pair. -/
def memoDistFn (m : List (String × Nat)) (a b : String) : Nat :=
  (lookupDist m a b).getD 0

/-! ## Tokenizer (`tokenize`, lines 42-65) -/

/-- Modelled from the spec: the external public-suffix domain splitter
(`tldextract.extract(...).subdomain`, §6), specialised to hostnames under the
registrable domain `example.com` used throughout: the subdomain of
`X.example.com` is `X`, and the subdomain is empty otherwise (in particular for
`example.com` itself and for bare labels with no registrable suffix). -/
def subdomainOf (host : List Char) : List Char :=
  let dom := '.' :: "example.com".toList
  if leadsWith dom.reverse host.reverse then host.take (host.length - dom.length) else []

/-- `re.split('([0-9]+)', token)` with empty pieces dropped: the maximal
alternating digit / non-digit runs of `token`, in order. -/
def splitRuns : List Char → List (List Char)
  | [] => []
  | c :: rest =>
    match splitRuns rest with
    | [] => [[c]]
    | (d :: ds) :: rs =>
      if c.isDigit = d.isDigit then (c :: d :: ds) :: rs
      else [c] :: (d :: ds) :: rs
    | [] :: rs => [[c]] ++ rs

/-- The hyphen special case of `tokenize` (lines 57-62): a lone `"-"` run is
merged into the immediately following run as a literal prefix instead of being
emitted on its own. -/
def mergeHyphens : List (List Char) → List (List Char)
  | [] => []
  | [x] => [x]
  | x :: next :: rest =>
    if x = ['-'] then ('-' :: next) :: mergeHyphens rest
    else x :: mergeHyphens (next :: rest)

/-- Tokenize one dot-delimited level: split on `-`, tag every segment after the
first with a leading `-`, split each segment into digit / non-digit runs, and
merge lone hyphens into following runs. -/
def tokenizeLevel (item : List Char) : List (List Char) :=
  let tokens :=
    match splitOnChar '-' item with
    | [] => []
    | s :: rest => s :: rest.map (fun e => '-' :: e)
  (tokens.map (fun tok => mergeHyphens (splitRuns tok))).flatten

/-- Tokenize a subdomain string into levels of lexical tokens. -/
def tokenizeSub (sub : List Char) : List (List (List Char)) :=
  (splitOnChar '.' sub).map tokenizeLevel

/-- `tokenize([host])[0]` for one hostname. -/
def tokenizeHost (host : String) : List (List (List Char)) :=
  tokenizeSub (subdomainOf host.toList)

/-- `tokenize` (lines 42-65), at `String` granularity. -/
def tokenize (items : List String) : List (List (List String)) :=
  items.map (fun h => (tokenizeHost h).map (fun lv => lv.map (fun t => t.asString)))

/-! ## Range compressor (`compress_number_ranges`, lines 68-135) -/

/-- `token.isnumeric()` (restricted to ASCII digits, the only numerals DNS
hostnames contain). -/
def isNumericStr (t : List Char) : Bool := !t.isEmpty && t.all (fun c => c.isDigit)

/-- `re.match('-[0-9]+', token)` succeeds, i.e. the token starts with a hyphen
followed by at least one digit. -/
def hyphTok : List Char → Bool
  | a :: b :: _ => a = '-' && b.isDigit
  | _ => false

/-- One collected compression candidate: the joined numeric part `g1` (the key
of the Python dicts), the full original group text `rep` (`repl[g1]`), the
joined non-numeric leftovers `ext` (`extra[g1]`) and whether the numbers were
hyphen-prefixed (`g1 in hyphen`). -/
structure GEntry where
  g1 : List Char
  rep : List Char
  ext : List Char
  hyph : Bool
  deriving DecidableEq, Repr

/-- Classification of one parenthesized group (lines 78-102): skip groups with
`?` or nested parens, skip mixed plain/hyphenated numerics, and otherwise
record a candidate when at least two (plain or hyphenated) numeric alternatives
are present. -/
def classify (group : List Char) : List GEntry :=
  let tokens := splitOnChar '|' group
  let numbers := tokens.filter (fun t => isNumericStr t)
  let nonnumbers := tokens.filter (fun t => !isNumericStr t && !hyphTok t)
  let hnumbers := (tokens.filter (fun t => hyphTok t)).map (fun t => t.drop 1)
  if hasChar group '?' || hasChar group ')' || hasChar group '(' then []
  else if !numbers.isEmpty && !hnumbers.isEmpty then []
  else if 1 < numbers.length then [⟨joinBar numbers, group, joinBar nonnumbers, false⟩]
  else if 1 < hnumbers.length then [⟨joinBar hnumbers, group, joinBar nonnumbers, true⟩]
  else []

/-- The paren-depth scan of lines 72-102.  Each stack frame holds the reversed
text accumulated so far for one open `(`.  On `)` the innermost frame is closed,
classified, and its full text (parens included) is folded into the enclosing
frame.  Characters outside any group are dropped (they produce no candidate).
A `)` with an empty stack raises IndexError in Python; it is modelled as a
skip (the program never produces unbalanced patterns from DNS input). -/
def scanGroups : List Char → List (List Char) → List GEntry → List GEntry
  | [], _, acc => acc
  | c :: rest, stk, acc =>
    if c = '(' then scanGroups rest ([] :: stk) acc
    else if c = ')' then
      match stk with
      | [] => scanGroups rest [] acc
      | fr :: stk2 =>
        let acc2 := acc ++ classify fr.reverse
        match stk2 with
        | [] => scanGroups rest [] acc2
        | fr2 :: stk3 => scanGroups rest ((')' :: (fr ++ ('(' :: fr2))) :: stk3) acc2
    else
      match stk with
      | [] => scanGroups rest [] acc
      | fr :: stk2 => scanGroups rest ((c :: fr) :: stk2) acc

/-- Reversed numeric tokens (line 107): hostnames write integers with the most
significant digit first, so positions are counted from the right. -/
def revTokens (toks : List (List Char)) : List (List Char) := toks.map List.reverse

/-- The digit values observed at (reversed) position `p` (lines 108-112). -/
def digitsAtPos (rts : List (List Char)) (p : Nat) : List Nat :=
  rts.filterMap (fun t => (t[p]?).map dval)

/-- Length of the longest token (`len(s[-1])` after sorting by length). -/
def maxLenOf (toks : List (List Char)) : Nat :=
  toks.foldl (fun m t => Nat.max m t.length) 0

/-- Length of the shortest token (`len(s[0])` after sorting by length). -/
def minLenOf (toks : List (List Char)) : Nat :=
  match toks with
  | [] => 0
  | t :: ts => ts.foldl (fun m u => Nat.min m u.length) t.length

/-- The per-position summary used by the emission loop (lines 113-128): the
minimum and maximum digit value at position `p`, and whether the position is
optional (absent from the shortest token, lines 114-117). -/
def posSpec (toks : List (List Char)) (p : Nat) : Nat × Nat × Bool :=
  match digitsAtPos (revTokens toks) p with
  | [] => (0, 0, decide (minLenOf toks ≤ p))
  | d :: ds => (ds.foldl Nat.min d, ds.foldl Nat.max d, decide (minLenOf toks ≤ p))

/-- All position summaries, from the most significant position down to the
least (line 119 iterates the positions dict keys in reverse order). -/
def posSpecs (toks : List (List Char)) : List (Nat × Nat × Bool) :=
  ((List.range (maxLenOf toks)).reverse).map (posSpec toks)

/-- Emission of one position (lines 120-128): a single digit when only one
value occurs, `[min-max]` otherwise, followed by `?` when optional. -/
def renderSpec : Nat × Nat × Bool → List Char
  | (lo, hi, opt) =>
    (if lo = hi then [digitChar lo]
     else ['[', digitChar lo, '-', digitChar hi, ']'])
    ++ (if opt then ['?'] else [])

/-- Emission of all positions, most significant first. -/
def renderSpecs (l : List (Nat × Nat × Bool)) : List Char :=
  (l.map renderSpec).flatten

/-- The generalized replacement text of one group (lines 103-129): `(`
(or `(-` for hyphenated numbers), the per-position emissions, `)`. -/
def generalizeGroup (hyph : Bool) (toks : List (List Char)) : List Char :=
  (if hyph then ['(', '-'] else ['(']) ++ renderSpecs (posSpecs toks) ++ [')']

/-- Last write wins for the Python dicts `repl` / `extra` keyed by `g1`. -/
def lastEntryFor (entries : List GEntry) (g : List Char) : Option GEntry :=
  (entries.filter (fun e => e.g1 = g)).getLast?

/-- One iteration of the replacement loop (lines 103-134) for the key `g`. -/
def applyGroup (entries : List GEntry) (ret : List Char) (g : List Char) : List Char :=
  match lastEntryFor entries g with
  | none => ret
  | some e =>
    let hy := entries.any (fun e2 => e2.g1 = g && e2.hyph)
    let gen := generalizeGroup hy (splitOnChar '|' g)
    let gen2 := if e.ext.isEmpty then gen
                else '(' :: (gen ++ ('|' :: '(' :: (e.ext ++ [')', ')'])))
    listReplace ret ('(' :: (e.rep ++ [')'])) gen2

/-- `compress_number_ranges` (lines 68-135) over character lists: collect the
candidate entries by the paren scan, then run the replacement loop over the
`groups` key list. -/
def compressL (regex : List Char) : List Char :=
  ((scanGroups regex [] []).map (fun e => e.g1)).foldl
    (applyGroup (scanGroups regex [] [])) regex

/-- `compress_number_ranges` (lines 68-135). -/
def compress_number_ranges (regex : String) : String :=
  (compressL regex.toList).asString

/-! ## Semantics of the emitted digit-range dialect

Modelled from the spec: the external enumeration oracle interprets a compressed
numeric group as, per position, one character inside the bracket range (or the
single literal digit), with optional positions skippable.  `matchesSpecs` is
that matching relation against the per-position summaries. -/

/-- `matchesSpecs specs s` holds when `s` can be aligned against the emitted
per-position expressions: each spec either consumes one digit inside its range
or, if optional, is skipped. -/
def matchesSpecs : List (Nat × Nat × Bool) → List Char → Bool
  | [], s => s.isEmpty
  | (lo, hi, opt) :: ps, s =>
    (match s with
     | [] => false
     | c :: cs => c.isDigit && decide (lo ≤ dval c) && decide (dval c ≤ hi) && matchesSpecs ps cs)
    || (opt && matchesSpecs ps s)

/-! ## Pattern synthesizer (`closure_to_regex`, lines 138-174) -/

/-- The token lists of the members that have level `i`. -/
def levelRows (tokens : List (List (List (List Char)))) (i : Nat) :
    List (List (List Char)) :=
  tokens.filterMap (fun mt => mt[i]?)

/-- `optional[i][j]`: the tokens observed at level `i`, position `j`, in member
order, duplicates kept. -/
def optionalAt (tokens : List (List (List (List Char)))) (i j : Nat) : List (List Char) :=
  (levelRows tokens i).filterMap (fun lv => lv[j]?)

/-- `levels[i][j]`: same as `optionalAt` but deduplicated (a Python set,
modelled in first-insertion order). -/
def levelsAt (tokens : List (List (List (List Char)))) (i j : Nat) : List (List Char) :=
  dedupFirst (optionalAt tokens i j)

/-- `zip(*cols)` rows joined to strings (line 171). -/
def zipJoin (cols : List (List (List Char))) : List (List Char) :=
  match cols with
  | [] => []
  | c0 :: rest =>
    let m := rest.foldl (fun m c => Nat.min m c.length) c0.length
    (List.range m).map (fun r => (cols.filterMap (fun col => col[r]?)).flatten)

/-- `closure_to_regex` (lines 138-174): positional alignment of the tokenized
members into one pattern, then range compression of `pattern ++ "." ++ domain`. -/
def closure_to_regex (domain : String) (members : List String) : String :=
  let tokens := members.map tokenizeHost
  let nlevels := tokens.foldl (fun m mt => Nat.max m mt.length) 0
  let body := (List.range nlevels).foldl (fun ret i =>
    let npos := (levelRows tokens i).foldl (fun m lv => Nat.max m lv.length) 0
    let n0 : List Char := if i ≠ 0 then ['(', '.'] else []
    let n := (List.range npos).foldl (fun n j =>
      let toks := levelsAt tokens i j
      if i = 0 ∧ j = 0 then n ++ ('(' :: (joinBar toks ++ [')']))
      else if toks.length = 1 ∧ j = 0 then n ++ joinBar toks
      else
        let isopt := (optionalAt tokens i j).length ≠ members.length
        n ++ ('(' :: (joinBar toks ++ [')'])) ++ (if isopt then ['?'] else [])) n0
    let values := zipJoin ((List.range npos).map (fun j => optionalAt tokens i j))
    let isopt := (dedupFirst values).length ≠ 1 ∨ values.length ≠ members.length
    ret ++ (if i ≠ 0 then (if isopt then n ++ [')', '?'] else n ++ [')']) else n)) []
  (compressL (body ++ ('.' :: domain.toList))).asString

/-! ## Acceptance filter (`is_good_rule`, lines 177-181) -/

/-- `is_good_rule` (lines 177-181).  The pattern-cardinality oracle
(`DankEncoder(regex, 256).num_words(1, 256)`) is external; it enters as the
function parameter `numWords`.  Python's float division is modelled over `ℚ`. -/
def is_good_rule (numWords : String → Nat) (regex : String) (nkeys threshold : Nat)
    (maxRatio : ℚ) : Bool :=
  decide (numWords regex < threshold) ||
    decide ((numWords regex : ℚ) / (nkeys : ℚ) < maxRatio)

/-! ## Closure builder (`edit_closures`, lines 22-39) -/

/-- The neighbor set of pivot `a` (lines 28-32): `{a} ∪ {b | dist a b < delta}`,
as an insertion-ordered duplicate-free list. -/
def neighbors (dist : String → String → Nat) (items : List String) (a : String)
    (delta : Nat) : List String :=
  items.foldl (fun r b => if dist a b < delta then (if memB r b then r else r ++ [b]) else r) [a]

/-- Python set equality of two duplicate-free lists. -/
def sameSetB (r s : List String) : Bool :=
  r.all (fun x => memB s x) && s.all (fun x => memB r x)

/-- `edit_closures` (lines 22-39): the neighbor set of every pivot in input
order, with exact duplicate sets elided.  The `MEMO` lookup is abstracted into
the `dist` parameter (`main` passes the table lookup). -/
def edit_closures (dist : String → String → Nat) (items : List String) (delta : Nat) :
    List (List String) :=
  items.foldl (fun ret a =>
    if ret.any (fun s => sameSetB (neighbors dist items a delta) s) then ret
    else ret ++ [neighbors dist items a delta]) []

/-! ## Input loading (`main`, lines 214-224) -/

/-- The malformedness test of line 219, negated: `tokenize([host])` must yield
at least one level whose first token list is non-empty. -/
def malformedHost (host : String) : Bool :=
  match tokenizeHost host with
  | [] => true
  | lv0 :: _ => lv0.isEmpty

/-- The loading loop of lines 216-223, including Python's
remove-while-iterating semantics: the `for` loop holds a position index; when
`list.remove` deletes the current element, every later element slides one slot
left and the element immediately after the removed one is never visited.
`fuel` only bounds the recursion and is always instantiated large enough. -/
def loadFuel (target : String) : Nat → Nat → List String → List String
  | 0, _, l => l
  | fuel + 1, i, l =>
    match l[i]? with
    | none => l
    | some host =>
      if host = target then loadFuel target fuel (i + 1) l
      else if malformedHost host then loadFuel target fuel (i + 1) (l.eraseIdx i)
      else loadFuel target fuel (i + 1) l

/-- The working host list after the loading phase of `main` (lines 214-224),
starting from the sorted deduplicated input. -/
def loadKnownHosts (target : String) (hosts : List String) : List String :=
  loadFuel target (hosts.length + 1) 0 hosts

/-! ## Search orchestrator (`main`, lines 234-289) -/

/-- The closures actually handed to the synthesizer during the global sweep
(lines 234-239): for every `k` in `[dlow, dhigh)`, the closures over the full
host list that pass the `len(closure) > 1` guard. -/
def globalSweepClosures (dist : String → String → Nat) (hosts : List String)
    (dlow dhigh : Nat) : List (List String) :=
  (List.range' dlow (dhigh - dlow)).foldl (fun acc k =>
    acc ++ (edit_closures dist hosts k).filter (fun c => 1 < c.length)) []

/-- The body of the global sweep for one closure (lines 237-249): skip
singleton closures, skip synthesized patterns longer than `maxLen` before the
acceptance test, then add new accepted patterns. -/
def globalStep (numWords : String → Nat) (target : String) (maxLen threshold : Nat)
    (maxRatio : ℚ) (rules : List String) (closure : List String) : List String :=
  if 1 < closure.length then
    if maxLen < (closure_to_regex target closure).length then rules
    else if ¬ memB rules (closure_to_regex target closure) ∧
        is_good_rule numWords (closure_to_regex target closure) closure.length
          threshold maxRatio = true then
      rules ++ [closure_to_regex target closure]
    else rules
  else rules

/-- The global sweep (lines 234-249). -/
def globalSweep (numWords : String → Nat) (target : String)
    (dist : String → String → Nat) (hosts : List String)
    (dlow dhigh maxLen threshold : Nat) (maxRatio : ℚ) : List String :=
  (List.range' dlow (dhigh - dlow)).foldl (fun rules k =>
    (edit_closures dist hosts k).foldl (globalStep numWords target maxLen threshold maxRatio)
      rules) []

/-- The "first chance" of the n-gram-anchored sweep (lines 258-261): synthesize
over all hosts sharing a prefix and test, with no length guard. -/
def firstChance (numWords : String → Nat) (target : String) (keys : List String)
    (threshold : Nat) (maxRatio : ℚ) (rules : List String) : List String :=
  let r := closure_to_regex target keys
  if ¬ memB rules r ∧ is_good_rule numWords r keys.length threshold maxRatio = true then
    rules ++ [r]
  else rules

/-- All closures handed to the synthesizer during the prefix-restricted sweep
(lines 279-283): every closure of every `k`, with no size guard. -/
def thirdChanceClosures (dist : String → String → Nat) (keys : List String)
    (dlow dhigh : Nat) : List (List String) :=
  (List.range' dlow (dhigh - dlow)).foldl (fun acc k =>
    acc ++ edit_closures dist keys k) []

/-- The body of the prefix-restricted sweep for one closure (lines 282-289):
synthesize and test with no size or length guard (the failing branch only
logs). -/
def thirdStep (numWords : String → Nat) (target : String) (threshold : Nat)
    (maxRatio : ℚ) (rules : List String) (closure : List String) : List String :=
  if ¬ memB rules (closure_to_regex target closure) ∧
      is_good_rule numWords (closure_to_regex target closure) closure.length
        threshold maxRatio = true then
    rules ++ [closure_to_regex target closure]
  else rules

/-- The prefix-restricted edit-distance sweep (lines 278-289). -/
def thirdChance (numWords : String → Nat) (target : String)
    (dist : String → String → Nat) (keys : List String)
    (dlow dhigh threshold : Nat) (maxRatio : ℚ) (rules0 : List String) : List String :=
  (List.range' dlow (dhigh - dlow)).foldl (fun rules k =>
    (edit_closures dist keys k).foldl (thirdStep numWords target threshold maxRatio)
      rules) rules0

/-! ## General lemmas -/

theorem memB_iff {α : Type} [DecidableEq α] (l : List α) (x : α) :
    memB l x = true ↔ x ∈ l := by
  simp [memB, List.any_eq_true]

/-- Fold invariant: if every step only keeps old rules or adds rules satisfying
`P`, every rule of the fold either was initial or satisfies `P`. -/
theorem foldl_preserve {α β : Type} (P : β → Prop) (step : List β → α → List β)
    (l : List α) (init : List β)
    (hinit : ∀ r ∈ init, P r)
    (hstep : ∀ rules a, a ∈ l → ∀ r ∈ step rules a, r ∈ rules ∨ P r) :
    ∀ r ∈ l.foldl step init, P r := by
  induction l generalizing init with
  | nil => simpa using hinit
  | cons a l ih =>
    intro r hr
    simp only [List.foldl_cons] at hr
    refine ih (step init a) ?_ ?_ r hr
    · intro r2 hr2
      rcases hstep init a (by simp) r2 hr2 with h | h
      · exact hinit r2 h
      · exact h
    · intro rules b hb r2 hr2
      exact hstep rules b (by simp [hb]) r2 hr2

/-- Membership in an append-accumulating fold. -/
theorem mem_foldl_append {α β : Type} (f : α → List β) (l : List α) (init : List β)
    (x : β) :
    x ∈ l.foldl (fun acc k => acc ++ f k) init ↔ x ∈ init ∨ ∃ k ∈ l, x ∈ f k := by
  induction l generalizing init with
  | nil => simp
  | cons a l ih =>
    simp only [List.foldl_cons, ih, List.mem_append, List.mem_cons]
    constructor
    · rintro ((h | h) | ⟨k, hk, hx⟩)
      · exact Or.inl h
      · exact Or.inr ⟨a, Or.inl rfl, h⟩
      · exact Or.inr ⟨k, Or.inr hk, hx⟩
    · rintro (h | ⟨k, (rfl | hk), hx⟩)
      · exact Or.inl (Or.inl h)
      · exact Or.inl (Or.inr hx)
      · exact Or.inr ⟨k, hk, hx⟩

/-! ## Claim C6: tokenizer examples -/

/-- C6: the tokenizer splits the subdomain into dot-delimited levels of
hyphen / digit-run tokens, attaching a hyphen to an immediately following
pure-digit run: `"www.example.com"` tokenizes to levels `[["www"]]` and
`"foo-12.example.com"` to a single level `["foo", "-12"]`. -/
theorem tokenize_examples :
    tokenize ["www.example.com"] = [[["www"]]] ∧
    tokenize ["foo-12.example.com"] = [[["foo", "-12"]]] := by
  constructor <;> rfl

/-! ## Claim C2: the acceptance filter -/

/-- C2: `is_good_rule` accepts exactly when the oracle count is strictly below
`threshold` or `count / nkeys` is strictly below `max_ratio`; a count below
`threshold` is always accepted, and a count equal to `threshold` is accepted
iff the ratio test passes.  (Python's float division is modelled over `ℚ`.) -/
theorem is_good_rule_iff (numWords : String → Nat) (regex : String)
    (nkeys threshold : Nat) (maxRatio : ℚ) (hn : 0 < nkeys) :
    (is_good_rule numWords regex nkeys threshold maxRatio = true ↔
      (numWords regex < threshold ∨ (numWords regex : ℚ) / (nkeys : ℚ) < maxRatio)) ∧
    (numWords regex < threshold →
      is_good_rule numWords regex nkeys threshold maxRatio = true) ∧
    (numWords regex = threshold →
      (is_good_rule numWords regex nkeys threshold maxRatio = true ↔
        (numWords regex : ℚ) / (nkeys : ℚ) < maxRatio)) := by
  refine ⟨by simp [is_good_rule], ?_, ?_⟩
  · intro h
    simp [is_good_rule, h]
  · intro h
    simp [is_good_rule, h]

theorem is_good_rule_iff_witness :
    (is_good_rule (fun _ => 0) "x" 2 500 25 = true ↔
      ((0 : Nat) < 500 ∨ (((0 : Nat) : ℚ)) / ((2 : Nat) : ℚ) < 25)) ∧
    ((0 : Nat) < 500 → is_good_rule (fun _ => 0) "x" 2 500 25 = true) ∧
    ((0 : Nat) = 500 →
      (is_good_rule (fun _ => 0) "x" 2 500 25 = true ↔
        (((0 : Nat) : ℚ)) / ((2 : Nat) : ℚ) < 25)) :=
  is_good_rule_iff (fun _ => 0) "x" 2 500 25 (by decide)

/-! ## Claim C3: the loading phase and remove-while-iterating -/

/-- C3 (code bug): the spec requires every tokenization-failing host to be
excluded from the working set before the distance table is built, but the
loading loop removes elements from the list it is iterating (line 223), so
the element sliding into the removed slot is never examined.  With the two
adjacent malformed hosts `"..example.com" < ".example.com"` the second one
survives loading, and then enters the distance table. -/
theorem load_loop_keeps_adjacent_malformed :
    loadKnownHosts "example.com" ["..example.com", ".example.com"] = [".example.com"] ∧
    malformedHost ".example.com" = true ∧
    malformedHost "..example.com" = true ∧
    lookupDist (buildMemo (loadKnownHosts "example.com" ["..example.com", ".example.com"]))
      ".example.com" ".example.com" = some 0 := by
  refine ⟨rfl, rfl, rfl, rfl⟩

/-! ## Claim C4: the concatenated-key distance table -/

/-- C4 (code bug): the distance table keys pairs by raw string concatenation
(line 229), so distinct pairs can collide.  For the host list
`["ab", "aba", "b"]` the self pair `("ab","ab")` and the pair `("aba","b")`
share the key `"abab"`; the later write wins, and the lookup of line 30
returns 2 for the self pair `("ab","ab")` whose Levenshtein distance is 0. -/
theorem memo_lookup_self_pair_wrong :
    lookupDist (buildMemo ["ab", "aba", "b"]) "ab" "ab" = some 2 ∧
    lev "ab" "ab" = 0 ∧
    lev "aba" "b" = 2 := by
  refine ⟨rfl, rfl, rfl⟩

/-! ## Claim C7: idempotence of the range compressor on synthesized output -/

/-- C7 counterexample: recompressing a synthesized pattern is NOT always a
no-op.  For members `{1.1, 2.2, x.y}.example.com` the two groups `(1|2|x)` and
`(1|2|y)` share the numeric key `"1|2"`, the `repl` dict keeps only the last
group, so the first compression pass never replaces `(1|2|x)` — which is still
a primitive numeric alternation in the output, and a second pass rewrites it. -/
theorem compress_not_idempotent_on_synth :
    compress_number_ranges
        (closure_to_regex "example.com"
          ["1.1.example.com", "2.2.example.com", "x.y.example.com"]) ≠
      closure_to_regex "example.com"
        ["1.1.example.com", "2.2.example.com", "x.y.example.com"] := by
  decide

/-- C7 amended: recompression is a no-op for synthesized patterns in which no
two alternation groups share the same numeric alternative sequence — in
particular for the plain-numeric `dev{1,2,3}` family and the hyphenated
`foo-{1,2}` family; full idempotence fails (see the counterexample). -/
theorem compress_idempotent_on_synth_instances :
    compress_number_ranges
        (closure_to_regex "example.com"
          ["dev1.example.com", "dev2.example.com", "dev3.example.com"]) =
      closure_to_regex "example.com"
        ["dev1.example.com", "dev2.example.com", "dev3.example.com"] ∧
    compress_number_ranges
        (closure_to_regex "example.com" ["foo-1.example.com", "foo-2.example.com"]) =
      closure_to_regex "example.com" ["foo-1.example.com", "foo-2.example.com"] := by
  constructor <;> decide

/-! ## Claim C5: singleton closures -/

/-- C5 counterexample: in the prefix-restricted sweep there is no
`len(closure) > 1` guard (lines 281-289): for the keys
`["aa.example.com", "bb.example.com"]` at edit distance 2 with δ sweeping
`[2, 3)`, the singleton closure `["aa.example.com"]` is handed to the
synthesizer, tested, and its pattern `(aa).example.com` is added to the
rule set. -/
theorem thirdChance_singleton_synthesized :
    ["aa.example.com"] ∈
      thirdChanceClosures
        (memoDistFn (buildMemo ["aa.example.com", "bb.example.com"]))
        ["aa.example.com", "bb.example.com"] 2 3 ∧
    List.length (α := String) ["aa.example.com"] = 1 ∧
    closure_to_regex "example.com" ["aa.example.com"] = "(aa).example.com" ∧
    "(aa).example.com" ∈
      thirdChance (fun _ => 0) "example.com"
        (memoDistFn (buildMemo ["aa.example.com", "bb.example.com"]))
        ["aa.example.com", "bb.example.com"] 2 3 500 25 [] := by
  refine ⟨by decide, rfl, rfl, by decide⟩

/-- Anything in the result of one `globalStep` is an old rule or the pattern of
a multi-member closure that passed the length guard. -/
theorem globalStep_mem (numWords : String → Nat) (target : String)
    (maxLen threshold : Nat) (maxRatio : ℚ) (rules : List String)
    (closure : List String) (r : String)
    (hr : r ∈ globalStep numWords target maxLen threshold maxRatio rules closure) :
    r ∈ rules ∨
      (r = closure_to_regex target closure ∧ r.length ≤ maxLen ∧ 1 < closure.length) := by
  unfold globalStep at hr
  split_ifs at hr with h1 h2 h3
  · exact Or.inl hr
  · rcases List.mem_append.mp hr with h | h
    · exact Or.inl h
    · simp only [List.mem_singleton] at h
      subst h
      exact Or.inr ⟨rfl, by omega, h1⟩
  · exact Or.inl hr
  · exact Or.inl hr

/-- C5 amended: in the global sweep (lines 237-239) singleton closures are
discarded before pattern synthesis — every closure handed to the synthesizer
there has at least two members, and every rule the global sweep accumulates is
the synthesis of such a closure.  (In the prefix-restricted sweep this guard is
absent; see the counterexample.) -/
theorem globalSweep_discards_singletons :
    (∀ (dist : String → String → Nat) (hosts : List String) (dlow dhigh : Nat),
       ∀ c ∈ globalSweepClosures dist hosts dlow dhigh, 2 ≤ c.length) ∧
    (∀ (numWords : String → Nat) (target : String) (dist : String → String → Nat)
       (hosts : List String) (dlow dhigh maxLen threshold : Nat) (maxRatio : ℚ),
       ∀ r ∈ globalSweep numWords target dist hosts dlow dhigh maxLen threshold maxRatio,
         ∃ c ∈ globalSweepClosures dist hosts dlow dhigh, r = closure_to_regex target c) := by
  constructor
  · intro dist hosts dlow dhigh c hc
    rcases (mem_foldl_append _ _ _ _).mp hc with h | ⟨k, hk, hck⟩
    · simp at h
    · have := (List.mem_filter.mp hck).2
      simp only [decide_eq_true_eq] at this
      omega
  · intro numWords target dist hosts dlow dhigh maxLen threshold maxRatio
    refine foldl_preserve _ _ _ _ (by simp) ?_
    intro rules k hk r hr
    refine foldl_preserve (fun r => r ∈ rules ∨
      ∃ c ∈ globalSweepClosures dist hosts dlow dhigh, r = closure_to_regex target c)
      _ _ _ (fun x hx => Or.inl hx) ?_ r hr
    intro rules2 c hc x hx
    rcases globalStep_mem _ _ _ _ _ _ _ _ hx with h | ⟨hx1, _, hlen⟩
    · exact Or.inl h
    · refine Or.inr (Or.inr ⟨c, ?_, hx1⟩)
      refine (mem_foldl_append _ _ _ _).mpr (Or.inr ⟨k, hk, ?_⟩)
      exact List.mem_filter.mpr ⟨hc, by simpa using hlen⟩

theorem globalSweep_discards_singletons_witness :
    2 ≤ List.length (α := String) ["aa.example.com", "ab.example.com"] :=
  globalSweep_discards_singletons.1
    (memoDistFn (buildMemo ["aa.example.com", "ab.example.com"]))
    ["aa.example.com", "ab.example.com"] 2 3
    ["aa.example.com", "ab.example.com"] (by decide)

/-! ## Claim C9: the pattern-length guard -/

/-- C9: every rule accumulated by the global sweep has length at most the
configured maximum (the `len(r) > max_length` skip of line 243 runs before the
acceptance test), while the n-gram-anchored first chance and the
prefix-restricted sweep apply no length check: with maximum length 5, the
19-character pattern `(aa|ab).example.com` is still tested and accepted in
both, and the same input produces nothing in the global sweep. -/
theorem global_sweep_length_guard :
    (∀ (numWords : String → Nat) (target : String) (dist : String → String → Nat)
       (hosts : List String) (dlow dhigh maxLen threshold : Nat) (maxRatio : ℚ),
       ∀ r ∈ globalSweep numWords target dist hosts dlow dhigh maxLen threshold maxRatio,
         r.length ≤ maxLen) ∧
    ("(aa|ab).example.com" ∈
        firstChance (fun _ => 0) "example.com" ["aa.example.com", "ab.example.com"]
          500 25 [] ∧
      "(aa|ab).example.com" ∈
        thirdChance (fun _ => 0) "example.com"
          (memoDistFn (buildMemo ["aa.example.com", "ab.example.com"]))
          ["aa.example.com", "ab.example.com"] 2 3 500 25 [] ∧
      5 < String.length "(aa|ab).example.com" ∧
      globalSweep (fun _ => 0) "example.com"
        (memoDistFn (buildMemo ["aa.example.com", "ab.example.com"]))
        ["aa.example.com", "ab.example.com"] 2 3 5 500 25 = []) := by
  constructor
  · intro numWords target dist hosts dlow dhigh maxLen threshold maxRatio
    refine foldl_preserve _ _ _ _ (by simp) ?_
    intro rules k hk r hr
    refine foldl_preserve (fun r => r ∈ rules ∨ r.length ≤ maxLen)
      _ _ _ (fun x hx => Or.inl hx) ?_ r hr
    intro rules2 c hc x hx
    rcases globalStep_mem _ _ _ _ _ _ _ _ hx with h | ⟨_, hlen, _⟩
    · exact Or.inl h
    · exact Or.inr (Or.inr hlen)
  · exact ⟨by decide, by decide, by decide, by decide⟩

theorem global_sweep_length_guard_witness :
    String.length "(aa|ab).example.com" ≤ 1000 :=
  global_sweep_length_guard.1 (fun _ => 0) "example.com"
    (memoDistFn (buildMemo ["aa.example.com", "ab.example.com"]))
    ["aa.example.com", "ab.example.com"] 2 3 1000 500 25
    "(aa|ab).example.com" (by decide)

/-! ## Claim C8: monotonicity of closures in the distance threshold -/

theorem sameSetB_refl (r : List String) : sameSetB r r = true := by
  simp [sameSetB, List.all_eq_true, memB_iff]

theorem sameSetB_symm (r s : List String) : sameSetB r s = sameSetB s r := by
  unfold sameSetB
  exact Bool.and_comm _ _

theorem sameSetB_mem_right {c d : List String} (h : sameSetB c d = true) {x : String}
    (hx : x ∈ d) : x ∈ c := by
  simp only [sameSetB, Bool.and_eq_true, List.all_eq_true] at h
  exact (memB_iff c x).mp (h.2 x hx)

/-- Membership in a neighbor set: the pivot, plus every listed host at distance
strictly below the threshold. -/
theorem mem_neighbors (dist : String → String → Nat) (items : List String)
    (a : String) (delta : Nat) (x : String) :
    x ∈ neighbors dist items a delta ↔ x = a ∨ (x ∈ items ∧ dist a x < delta) := by
  suffices h : ∀ (l acc : List String),
      (x ∈ l.foldl (fun r b =>
          if dist a b < delta then (if memB r b then r else r ++ [b]) else r) acc ↔
        x ∈ acc ∨ (x ∈ l ∧ dist a x < delta)) by
    simpa [neighbors] using h items [a]
  intro l
  induction l with
  | nil => simp
  | cons b l ih =>
    intro acc
    simp only [List.foldl_cons, ih]
    have hstep : x ∈ (if dist a b < delta then (if memB acc b then acc else acc ++ [b])
        else acc) ↔ x ∈ acc ∨ (x = b ∧ dist a b < delta) := by
      split_ifs with h1 h2
      · constructor
        · exact Or.inl
        · rintro (h | ⟨rfl, _⟩)
          · exact h
          · exact (memB_iff acc x).mp h2
      · simp only [List.mem_append, List.mem_singleton]
        tauto
      · constructor
        · exact Or.inl
        · rintro (h | ⟨rfl, h⟩)
          · exact h
          · exact absurd h h1
    rw [hstep]
    simp only [List.mem_cons]
    constructor
    · rintro ((h | ⟨rfl, h⟩) | ⟨h, h2⟩)
      · exact Or.inl h
      · exact Or.inr ⟨Or.inl rfl, h⟩
      · exact Or.inr ⟨Or.inr h, h2⟩
    · rintro (h | ⟨(rfl | h), h2⟩)
      · exact Or.inl (Or.inl h)
      · exact Or.inl (Or.inr ⟨rfl, h2⟩)
      · exact Or.inr ⟨h, h2⟩

theorem neighbors_mono (dist : String → String → Nat) (items : List String)
    (a : String) (d1 d2 : Nat) (h : d1 ≤ d2) :
    ∀ x ∈ neighbors dist items a d1, x ∈ neighbors dist items a d2 := by
  intro x hx
  rcases (mem_neighbors dist items a d1 x).mp hx with h1 | ⟨hi, hd⟩
  · exact (mem_neighbors dist items a d2 x).mpr (Or.inl h1)
  · exact (mem_neighbors dist items a d2 x).mpr (Or.inr ⟨hi, lt_of_lt_of_le hd h⟩)

theorem closures_grow (dist : String → String → Nat) (items : List String) (delta : Nat) :
    ∀ (l : List String) (acc : List (List String)) (x : List String), x ∈ acc →
      x ∈ l.foldl (fun ret a =>
        if ret.any (fun s => sameSetB (neighbors dist items a delta) s) then ret
        else ret ++ [neighbors dist items a delta]) acc := by
  intro l
  induction l with
  | nil => intro acc x hx; simpa using hx
  | cons a l ih =>
    intro acc x hx
    simp only [List.foldl_cons]
    apply ih
    split
    · exact hx
    · exact List.mem_append.mpr (Or.inl hx)

theorem closures_entries (dist : String → String → Nat) (items : List String)
    (delta : Nat) :
    ∀ (l : List String) (acc : List (List String)) (c : List String),
      c ∈ l.foldl (fun ret a =>
          if ret.any (fun s => sameSetB (neighbors dist items a delta) s) then ret
          else ret ++ [neighbors dist items a delta]) acc →
        c ∈ acc ∨ ∃ a ∈ l, c = neighbors dist items a delta := by
  intro l
  induction l with
  | nil => intro acc c hc; exact Or.inl (by simpa using hc)
  | cons a l ih =>
    intro acc c hc
    simp only [List.foldl_cons] at hc
    rcases ih _ c hc with h | ⟨b, hb, rfl⟩
    · split at h
      · exact Or.inl h
      · rcases List.mem_append.mp h with h | h
        · exact Or.inl h
        · simp only [List.mem_singleton] at h
          exact Or.inr ⟨a, by simp, h⟩
    · exact Or.inr ⟨b, by simp [hb], rfl⟩

theorem closures_cover (dist : String → String → Nat) (items : List String)
    (delta : Nat) :
    ∀ (l : List String) (acc : List (List String)) (a : String), a ∈ l →
      ∃ c ∈ l.foldl (fun ret a =>
          if ret.any (fun s => sameSetB (neighbors dist items a delta) s) then ret
          else ret ++ [neighbors dist items a delta]) acc,
        sameSetB c (neighbors dist items a delta) = true := by
  intro l
  induction l with
  | nil => simp
  | cons b l ih =>
    intro acc a ha
    simp only [List.foldl_cons]
    rcases List.mem_cons.mp ha with rfl | ha
    · by_cases h : (acc.any (fun s => sameSetB (neighbors dist items a delta) s)) = true
      · rcases List.any_eq_true.mp h with ⟨s, hs, hss⟩
        refine ⟨s, closures_grow dist items delta l _ s ?_, ?_⟩
        · rw [if_pos h]
          exact hs
        · rw [sameSetB_symm]
          exact hss
      · refine ⟨neighbors dist items a delta,
          closures_grow dist items delta l _ _ ?_, sameSetB_refl _⟩
        rw [if_neg h]
        exact List.mem_append.mpr (Or.inr (by simp))
    · exact ih _ a ha

/-- C8: for thresholds `d1 < d2`, every neighbor-set produced under `d1` is a
subset of some neighbor-set produced under `d2` for the same pivot host: the
set is exactly its pivot's neighbor set, the `d2` output contains a set equal
to the same pivot's `d2` neighbor set, and the former is contained in the
latter. -/
theorem edit_closures_monotone (dist : String → String → Nat) (items : List String)
    (d1 d2 : Nat) (hd : d1 < d2) :
    ∀ c ∈ edit_closures dist items d1,
      ∃ a ∈ items, sameSetB c (neighbors dist items a d1) = true ∧
        ∃ c2 ∈ edit_closures dist items d2,
          sameSetB c2 (neighbors dist items a d2) = true ∧ ∀ x ∈ c, x ∈ c2 := by
  intro c hc
  rcases closures_entries dist items d1 items [] c hc with h | ⟨a, ha, rfl⟩
  · simp at h
  · refine ⟨a, ha, sameSetB_refl _, ?_⟩
    rcases closures_cover dist items d2 items [] a ha with ⟨c2, hc2, hs⟩
    refine ⟨c2, hc2, hs, ?_⟩
    intro x hx
    exact sameSetB_mem_right hs
      (neighbors_mono dist items a d1 d2 (Nat.le_of_lt hd) x hx)

theorem edit_closures_monotone_witness :
    ∃ a ∈ ["a.example.com", "b.example.com"],
      sameSetB ["a.example.com", "b.example.com"]
        (neighbors (memoDistFn (buildMemo ["a.example.com", "b.example.com"]))
          ["a.example.com", "b.example.com"] a 2) = true ∧
      ∃ c2 ∈ edit_closures (memoDistFn (buildMemo ["a.example.com", "b.example.com"]))
          ["a.example.com", "b.example.com"] 4,
        sameSetB c2 (neighbors (memoDistFn (buildMemo ["a.example.com", "b.example.com"]))
          ["a.example.com", "b.example.com"] a 4) = true ∧
        ∀ x ∈ ["a.example.com", "b.example.com"], x ∈ c2 :=
  edit_closures_monotone (memoDistFn (buildMemo ["a.example.com", "b.example.com"]))
    ["a.example.com", "b.example.com"] 2 4 (by decide)
    ["a.example.com", "b.example.com"] (by decide)

/-! ## Claim C10: the target-domain suffix survives compression -/

theorem leadsWith_iff (n s : List Char) : leadsWith n s = true ↔ ∃ r, s = n ++ r := by
  induction n generalizing s with
  | nil => simp [leadsWith]
  | cons a as ih =>
    cases s with
    | nil => simp [leadsWith]
    | cons b bs =>
      simp only [leadsWith, Bool.and_eq_true, decide_eq_true_eq, ih,
        List.cons_append, List.cons.injEq]
      constructor
      · rintro ⟨rfl, r, rfl⟩
        exact ⟨r, rfl, rfl⟩
      · rintro ⟨r, rfl, rfl⟩
        exact ⟨rfl, r, rfl⟩

/-- Unfolding equation for one `replaceFuel` step on a nonempty string. -/
theorem replaceFuel_succ_cons (needle repl : List Char) (fuel : Nat) (c : Char)
    (cs : List Char) :
    replaceFuel needle repl (fuel + 1) (c :: cs) =
      if needle ≠ [] ∧ leadsWith needle (c :: cs) = true then
        repl ++ replaceFuel needle repl fuel ((c :: cs).drop needle.length)
      else c :: replaceFuel needle repl fuel cs := rfl

/-- If the first character of the needle never occurs in `s`, `str.replace`
leaves `s` unchanged. -/
theorem replaceFuel_no_occurrence (needle repl : List Char) (c0 : Char)
    (h0 : needle.head? = some c0) :
    ∀ (fuel : Nat) (s : List Char), c0 ∉ s → replaceFuel needle repl fuel s = s := by
  intro fuel
  induction fuel with
  | zero => intro s hs; rfl
  | succ fuel ih =>
    intro s hs
    cases s with
    | nil => rfl
    | cons c cs =>
      have hguard : ¬ (needle ≠ [] ∧ leadsWith needle (c :: cs) = true) := by
        rintro ⟨hne, hlw⟩
        rcases (leadsWith_iff _ _).mp hlw with ⟨r, hr⟩
        cases needle with
        | nil => exact hne rfl
        | cons d ds =>
          simp only [List.head?] at h0
          injection h0 with h0
          simp only [List.cons_append, List.cons.injEq] at hr
          refine hs (List.mem_cons.mpr (Or.inl ?_))
          rw [← h0]
          exact hr.1.symm
      rw [replaceFuel_succ_cons, if_neg hguard]
      have hcs : c0 ∉ cs := fun h => hs (List.mem_cons_of_mem _ h)
      rw [ih cs hcs]

/-- `str.replace` with a needle that starts with `(` and ends with `)` cannot
touch a suffix containing neither: every occurrence lies inside the part
before the suffix. -/
theorem replaceFuel_append_suffix (needle repl suf : List Char)
    (h0 : needle.head? = some '(') (h1 : needle.getLast? = some ')')
    (hs1 : '(' ∉ suf) (hs2 : ')' ∉ suf) :
    ∀ (fuel : Nat) (pre : List Char),
      ∃ pre2, replaceFuel needle repl fuel (pre ++ suf) = pre2 ++ suf := by
  intro fuel
  induction fuel with
  | zero => intro pre; exact ⟨pre, rfl⟩
  | succ fuel ih =>
    intro pre
    cases pre with
    | nil =>
      refine ⟨[], ?_⟩
      simpa using replaceFuel_no_occurrence needle repl '(' h0 (fuel + 1) suf hs1
    | cons c pre2 =>
      rw [List.cons_append, replaceFuel_succ_cons]
      by_cases hguard : needle ≠ [] ∧ leadsWith needle (c :: (pre2 ++ suf)) = true
      · have hlen : needle.length ≤ (c :: pre2).length := by
          by_contra hlen
          push_neg at hlen
          rcases (leadsWith_iff _ _).mp hguard.2 with ⟨r, hr⟩
          have hneedle : needle =
              (c :: pre2) ++ suf.take (needle.length - (c :: pre2).length) := by
            have h3 : needle = List.take needle.length ((c :: pre2) ++ suf) := by
              rw [show ((c :: pre2) ++ suf : List Char) = needle ++ r from hr,
                List.take_left]
            rw [List.take_append_eq_append_take,
              List.take_of_length_le (Nat.le_of_lt hlen)] at h3
            exact h3
          have htne : suf.take (needle.length - (c :: pre2).length) ≠ [] := by
            intro h
            rw [h, List.append_nil] at hneedle
            have hlen2 := congrArg List.length hneedle
            simp only [List.length_cons] at hlen2
            simp only [List.length_cons] at hlen
            omega
          have hin : (')' : Char) ∈ suf.take (needle.length - (c :: pre2).length) := by
            apply List.mem_of_mem_getLast?
            rw [← List.getLast?_append_of_ne_nil (c :: pre2) htne, ← hneedle, h1]
            rfl
          exact hs2 (List.take_subset _ _ hin)
        have hdrop : (c :: (pre2 ++ suf)).drop needle.length =
            (c :: pre2).drop needle.length ++ suf := by
          rw [← List.cons_append, List.drop_append_eq_append_drop,
            Nat.sub_eq_zero_of_le hlen, List.drop_zero]
        rcases ih ((c :: pre2).drop needle.length) with ⟨p3, hp⟩
        refine ⟨repl ++ p3, ?_⟩
        rw [if_pos hguard, hdrop, hp, List.append_assoc]
      · rcases ih pre2 with ⟨p3, hp⟩
        refine ⟨c :: p3, ?_⟩
        rw [if_neg hguard, hp]
        rfl

/-- One replacement-loop iteration preserves a parenthesis-free suffix. -/
theorem applyGroup_suffix (entries : List GEntry) (g suf : List Char)
    (hs1 : '(' ∉ suf) (hs2 : ')' ∉ suf) (pre : List Char) :
    ∃ pre2, applyGroup entries (pre ++ suf) g = pre2 ++ suf := by
  unfold applyGroup
  cases h : lastEntryFor entries g with
  | none => exact ⟨pre, rfl⟩
  | some e =>
    apply replaceFuel_append_suffix
    · rfl
    · show (('(' :: e.rep) ++ [')']).getLast? = some ')'
      exact List.getLast?_concat _
    · exact hs1
    · exact hs2

/-- The whole compression pass preserves a parenthesis-free suffix. -/
theorem compressL_suffix (suf : List Char) (hs1 : '(' ∉ suf) (hs2 : ')' ∉ suf)
    (pre : List Char) : ∃ pre2, compressL (pre ++ suf) = pre2 ++ suf := by
  unfold compressL
  generalize scanGroups (pre ++ suf) [] [] = entries
  generalize entries.map (fun e => e.g1) = gs
  induction gs generalizing pre with
  | nil => exact ⟨pre, rfl⟩
  | cons g gs ih =>
    simp only [List.foldl_cons]
    rcases applyGroup_suffix entries g suf hs1 hs2 pre with ⟨p2, hp⟩
    rw [hp]
    exact ih p2

/-- C10: for a target domain containing no parenthesis, every pattern returned
by `closure_to_regex` ends with the literal `.` followed by the domain: the
synthesizer appends the suffix (line 174) and no replacement of the compression
pass can overlap it, because every needle starts with `(` and ends with `)`. -/
theorem closure_to_regex_keeps_domain_suffix (domain : String) (members : List String)
    (h2 : 2 ≤ members.length)
    (hp : '(' ∉ domain.toList) (hq : ')' ∉ domain.toList) :
    ∃ pre, (closure_to_regex domain members).toList = pre ++ ('.' :: domain.toList) := by
  have hs1 : '(' ∉ ('.' :: domain.toList) := by
    simp only [List.mem_cons, not_or]
    exact ⟨by decide, hp⟩
  have hs2 : ')' ∉ ('.' :: domain.toList) := by
    simp only [List.mem_cons, not_or]
    exact ⟨by decide, hq⟩
  obtain ⟨b, hb⟩ : ∃ b, closure_to_regex domain members =
      (compressL (b ++ ('.' :: domain.toList))).asString := ⟨_, rfl⟩
  rcases compressL_suffix ('.' :: domain.toList) hs1 hs2 b with ⟨p2, hcomp⟩
  refine ⟨p2, ?_⟩
  rw [hb]
  show (compressL (b ++ ('.' :: domain.toList))) = p2 ++ ('.' :: domain.toList)
  exact hcomp

theorem closure_to_regex_keeps_domain_suffix_witness :
    ∃ pre, (closure_to_regex "example.com"
        ["aa.example.com", "ab.example.com"]).toList =
      pre ++ ('.' :: "example.com".toList) :=
  closure_to_regex_keeps_domain_suffix "example.com"
    ["aa.example.com", "ab.example.com"] (by decide) (by decide) (by decide)

/-! ## Claim C1: compression of primitive numeric alternation groups -/

theorem splitOnChar_ne_nil (sep : Char) (l : List Char) : splitOnChar sep l ≠ [] := by
  cases l with
  | nil => simp [splitOnChar]
  | cons c rest =>
    rw [splitOnChar]
    split_ifs
    · simp
    · cases h : splitOnChar sep rest <;> simp

theorem splitOnChar_no_sep (sep : Char) (t : List Char) (ht : sep ∉ t) :
    splitOnChar sep t = [t] := by
  induction t with
  | nil => rfl
  | cons c rest ih =>
    have hc : ¬ c = sep := fun h => ht (by simp [h])
    have hrest : sep ∉ rest := fun h => ht (List.mem_cons_of_mem _ h)
    rw [splitOnChar, if_neg hc, ih hrest]

theorem splitOnChar_append_sep (sep : Char) (t rest : List Char) (ht : sep ∉ t) :
    splitOnChar sep (t ++ sep :: rest) = t :: splitOnChar sep rest := by
  induction t with
  | nil => simp [splitOnChar]
  | cons c t2 ih =>
    have hc : ¬ c = sep := fun h => ht (by simp [h])
    have ht2 : sep ∉ t2 := fun h => ht (List.mem_cons_of_mem _ h)
    rw [List.cons_append, splitOnChar, if_neg hc, ih ht2]

theorem splitBar_joinBar (ts : List (List Char)) (hne : ts ≠ [])
    (hbar : ∀ t ∈ ts, '|' ∉ t) :
    splitOnChar '|' (joinBar ts) = ts := by
  induction ts with
  | nil => exact absurd rfl hne
  | cons t ts ih =>
    cases ts with
    | nil => exact splitOnChar_no_sep '|' t (hbar t (by simp))
    | cons u us =>
      rw [show joinBar (t :: u :: us) = t ++ '|' :: joinBar (u :: us) from rfl]
      rw [splitOnChar_append_sep '|' t _ (hbar t (by simp))]
      rw [ih (by simp) (fun v hv => hbar v (List.mem_cons_of_mem _ hv))]

theorem joinBar_chars (ts : List (List Char)) (c : Char) (hc : c ∈ joinBar ts) :
    c = '|' ∨ ∃ t ∈ ts, c ∈ t := by
  induction ts with
  | nil => simp [joinBar] at hc
  | cons t ts ih =>
    cases ts with
    | nil =>
      simp only [joinBar] at hc
      exact Or.inr ⟨t, by simp, hc⟩
    | cons u us =>
      rw [show joinBar (t :: u :: us) = t ++ '|' :: joinBar (u :: us) from rfl] at hc
      rcases List.mem_append.mp hc with h | h
      · exact Or.inr ⟨t, by simp, h⟩
      · rcases List.mem_cons.mp h with h | h
        · exact Or.inl h
        · rcases ih h with h | ⟨v, hv, hcv⟩
          · exact Or.inl h
          · exact Or.inr ⟨v, List.mem_cons_of_mem _ hv, hcv⟩

theorem all_digit_not_mem {t : List Char} (ht : t.all (fun c => c.isDigit) = true)
    {c : Char} (hc : c.isDigit = false) : c ∉ t := by
  intro h
  have h2 := List.all_eq_true.mp ht c h
  rw [hc] at h2
  exact Bool.false_ne_true h2

theorem numeric_all_digit {t : List Char} (h : isNumericStr t = true) :
    t.all (fun c => c.isDigit) = true := by
  simp only [isNumericStr, Bool.and_eq_true] at h
  exact h.2

theorem not_mem_joinBar_numeric (ts : List (List Char))
    (hnum : ∀ t ∈ ts, isNumericStr t = true) (c : Char) (hc : c.isDigit = false)
    (hbar : c ≠ '|') : c ∉ joinBar ts := by
  intro h
  rcases joinBar_chars ts c h with h | ⟨t, ht, hct⟩
  · exact hbar h
  · exact all_digit_not_mem (numeric_all_digit (hnum t ht)) hc hct

theorem numeric_not_hyphTok {t : List Char} (h : isNumericStr t = true) :
    hyphTok t = false := by
  cases t with
  | nil => rfl
  | cons a as =>
    cases as with
    | nil => rfl
    | cons b bs =>
      have ha : a.isDigit = true := by
        have := numeric_all_digit h
        exact List.all_eq_true.mp this a (by simp)
      have hne : ¬ (a = '-') := by
        intro hEq
        rw [hEq] at ha
        exact absurd ha (by decide)
      simp [hyphTok, hne]

theorem joinBar_nil : joinBar [] = [] := rfl

/-- Classification of the all-numeric group `t1|...|tn` with `n ≥ 2`: exactly
one candidate entry, whose key and original text are the whole group and whose
leftover alternation is empty. -/
theorem classify_joinBar (ts : List (List Char)) (h2 : 2 ≤ ts.length)
    (hnum : ∀ t ∈ ts, isNumericStr t = true) :
    classify (joinBar ts) = [⟨joinBar ts, joinBar ts, [], false⟩] := by
  have hne : ts ≠ [] := by
    intro h
    rw [h] at h2
    simp at h2
  have hbar : ∀ t ∈ ts, '|' ∉ t := fun t ht =>
    all_digit_not_mem (numeric_all_digit (hnum t ht)) (by decide)
  have hsplit : splitOnChar '|' (joinBar ts) = ts := splitBar_joinBar ts hne hbar
  have hq : hasChar (joinBar ts) '?' = false := by
    rw [hasChar, List.any_eq_false]
    intro d hd
    simp only [decide_eq_true_eq]
    intro hEq
    subst hEq
    exact not_mem_joinBar_numeric ts hnum '?' (by decide) (by decide) hd
  have hcp : hasChar (joinBar ts) ')' = false := by
    rw [hasChar, List.any_eq_false]
    intro d hd
    simp only [decide_eq_true_eq]
    intro hEq
    subst hEq
    exact not_mem_joinBar_numeric ts hnum ')' (by decide) (by decide) hd
  have hop : hasChar (joinBar ts) '(' = false := by
    rw [hasChar, List.any_eq_false]
    intro d hd
    simp only [decide_eq_true_eq]
    intro hEq
    subst hEq
    exact not_mem_joinBar_numeric ts hnum '(' (by decide) (by decide) hd
  have hfilter1 : ts.filter (fun t => isNumericStr t) = ts :=
    List.filter_eq_self.mpr (fun a ha => hnum a ha)
  have hfilter2 : ts.filter (fun t => !isNumericStr t && !hyphTok t) = [] := by
    rw [List.filter_eq_nil_iff]
    intro a ha
    simp [hnum a ha]
  have hfilter3 : ts.filter (fun t => hyphTok t) = [] := by
    rw [List.filter_eq_nil_iff]
    intro a ha
    simp [numeric_not_hyphTok (hnum a ha)]
  simp only [classify, hsplit, hq, hcp, hop, hfilter1, hfilter2, hfilter3,
    List.map_nil, List.isEmpty_nil, Bool.not_true, Bool.and_false, Bool.or_self,
    Bool.or_false, Bool.false_eq_true, if_false, joinBar_nil]
  rw [if_pos (by omega)]

/-- One-step unfolding of the scan. -/
theorem scanGroups_cons (c : Char) (rest : List Char) (stk : List (List Char))
    (acc : List GEntry) :
    scanGroups (c :: rest) stk acc =
      if c = '(' then scanGroups rest ([] :: stk) acc
      else if c = ')' then
        match stk with
        | [] => scanGroups rest [] acc
        | fr :: stk2 =>
          match stk2 with
          | [] => scanGroups rest [] (acc ++ classify fr.reverse)
          | fr2 :: stk3 => scanGroups rest ((')' :: (fr ++ ('(' :: fr2))) :: stk3)
              (acc ++ classify fr.reverse)
      else
        match stk with
        | [] => scanGroups rest [] acc
        | fr :: stk2 => scanGroups rest ((c :: fr) :: stk2) acc := rfl

/-- Scanning characters that are not parentheses only accumulates them into the
innermost open frame. -/
theorem scanGroups_accumulate (g : List Char) (hg : ∀ c ∈ g, c ≠ '(' ∧ c ≠ ')') :
    ∀ (rest fr : List Char) (stk : List (List Char)) (acc : List GEntry),
      scanGroups (g ++ rest) (fr :: stk) acc =
        scanGroups rest ((g.reverse ++ fr) :: stk) acc := by
  induction g with
  | nil =>
    intro rest fr stk acc
    simp
  | cons c g ih =>
    intro rest fr stk acc
    have hc := hg c (by simp)
    rw [List.cons_append, scanGroups_cons, if_neg hc.1, if_neg hc.2]
    show scanGroups (g ++ rest) ((c :: fr) :: stk) acc = _
    rw [ih (fun d hd => hg d (List.mem_cons_of_mem _ hd)) rest (c :: fr) stk acc]
    rw [List.reverse_cons, List.append_assoc, List.singleton_append]

/-- The scan of the single-group pattern `(g)` classifies exactly `g`. -/
theorem scanGroups_single (g : List Char) (hg : ∀ c ∈ g, c ≠ '(' ∧ c ≠ ')') :
    scanGroups ('(' :: (g ++ [')'])) [] [] = classify g := by
  rw [scanGroups_cons, if_pos rfl]
  rw [scanGroups_accumulate g hg [')'] [] [] []]
  rw [scanGroups_cons, if_neg (by decide), if_pos rfl]
  show scanGroups [] [] ([] ++ classify (g.reverse ++ []).reverse) = classify g
  simp only [List.append_nil, List.nil_append, List.reverse_reverse]
  rfl

theorem replaceFuel_zero_or_nil (needle repl : List Char) (fuel : Nat) :
    replaceFuel needle repl fuel [] = [] := by
  cases fuel <;> rfl

theorem leadsWith_refl (s : List Char) : leadsWith s s = true := by
  rw [leadsWith_iff]
  exact ⟨[], by simp⟩

/-- Replacing the whole string. -/
theorem listReplace_self (s r : List Char) (h : s ≠ []) : listReplace s s r = r := by
  cases s with
  | nil => exact absurd rfl h
  | cons c cs =>
    show replaceFuel (c :: cs) r (c :: cs).length (c :: cs) = r
    rw [show (c :: cs).length = cs.length + 1 from rfl, replaceFuel_succ_cons]
    rw [if_pos ⟨h, leadsWith_refl _⟩, List.drop_length, replaceFuel_zero_or_nil,
      List.append_nil]

/-- Compressing the primitive all-numeric group `(t1|...|tn)`, `n ≥ 2`: the
whole pattern is replaced by the generalized per-position expression. -/
theorem compress_single_numeric (ts : List (List Char)) (h2 : 2 ≤ ts.length)
    (hnum : ∀ t ∈ ts, isNumericStr t = true) :
    compressL ('(' :: (joinBar ts ++ [')'])) = generalizeGroup false ts := by
  have hg : ∀ c ∈ joinBar ts, c ≠ '(' ∧ c ≠ ')' := by
    intro c hc
    constructor
    · intro hEq
      subst hEq
      exact not_mem_joinBar_numeric ts hnum '(' (by decide) (by decide) hc
    · intro hEq
      subst hEq
      exact not_mem_joinBar_numeric ts hnum ')' (by decide) (by decide) hc
  have hbar : ∀ t ∈ ts, '|' ∉ t := fun t ht =>
    all_digit_not_mem (numeric_all_digit (hnum t ht)) (by decide)
  have hne : ts ≠ [] := by
    intro h
    rw [h] at h2
    simp at h2
  have hsplit : splitOnChar '|' (joinBar ts) = ts := splitBar_joinBar ts hne hbar
  have hscan : scanGroups ('(' :: (joinBar ts ++ [')'])) [] [] =
      [⟨joinBar ts, joinBar ts, [], false⟩] := by
    rw [scanGroups_single _ hg, classify_joinBar ts h2 hnum]
  have hlast : lastEntryFor [⟨joinBar ts, joinBar ts, [], false⟩] (joinBar ts) =
      some ⟨joinBar ts, joinBar ts, [], false⟩ := by
    simp [lastEntryFor]
  unfold compressL
  rw [hscan]
  simp only [List.map_cons, List.map_nil, List.foldl_cons, List.foldl_nil]
  unfold applyGroup
  rw [hlast]
  simp only [List.any_cons, List.any_nil, Bool.and_false, Bool.or_false,
    List.isEmpty_nil, if_true, hsplit]
  rw [listReplace_self _ _ (by simp)]

theorem foldl_min_facts (l : List Nat) (a : Nat) :
    l.foldl Nat.min a ≤ a ∧ ∀ x ∈ l, l.foldl Nat.min a ≤ x := by
  induction l generalizing a with
  | nil => simp
  | cons b l ih =>
    simp only [List.foldl_cons]
    refine ⟨le_trans (ih (Nat.min a b)).1 (Nat.min_le_left _ _), ?_⟩
    intro x hx
    rcases List.mem_cons.mp hx with rfl | hx
    · exact le_trans (ih (Nat.min a x)).1 (Nat.min_le_right _ _)
    · exact (ih (Nat.min a b)).2 x hx

theorem foldl_max_facts (l : List Nat) (a : Nat) :
    a ≤ l.foldl Nat.max a ∧ ∀ x ∈ l, x ≤ l.foldl Nat.max a := by
  induction l generalizing a with
  | nil => simp
  | cons b l ih =>
    simp only [List.foldl_cons]
    refine ⟨le_trans (Nat.le_max_left _ _) (ih (Nat.max a b)).1, ?_⟩
    intro x hx
    rcases List.mem_cons.mp hx with rfl | hx
    · exact le_trans (Nat.le_max_right _ _) (ih (Nat.max a x)).1
    · exact (ih (Nat.max a b)).2 x hx

theorem foldl_minlen_facts (l : List (List Char)) (a : Nat) :
    l.foldl (fun m u => Nat.min m u.length) a ≤ a ∧
      ∀ x ∈ l, l.foldl (fun m u => Nat.min m u.length) a ≤ x.length := by
  induction l generalizing a with
  | nil => simp
  | cons b l ih =>
    simp only [List.foldl_cons]
    refine ⟨le_trans (ih (Nat.min a b.length)).1 (Nat.min_le_left _ _), ?_⟩
    intro x hx
    rcases List.mem_cons.mp hx with rfl | hx
    · exact le_trans (ih (Nat.min a x.length)).1 (Nat.min_le_right _ _)
    · exact (ih (Nat.min a b.length)).2 x hx

theorem foldl_maxlen_facts (l : List (List Char)) (a : Nat) :
    a ≤ l.foldl (fun m u => Nat.max m u.length) a ∧
      ∀ x ∈ l, x.length ≤ l.foldl (fun m u => Nat.max m u.length) a := by
  induction l generalizing a with
  | nil => simp
  | cons b l ih =>
    simp only [List.foldl_cons]
    refine ⟨le_trans (Nat.le_max_left _ _) (ih (Nat.max a b.length)).1, ?_⟩
    intro x hx
    rcases List.mem_cons.mp hx with rfl | hx
    · exact le_trans (Nat.le_max_right _ _) (ih (Nat.max a x.length)).1
    · exact (ih (Nat.max a b.length)).2 x hx

theorem minLenOf_le {ts : List (List Char)} {t : List Char} (ht : t ∈ ts) :
    minLenOf ts ≤ t.length := by
  cases ts with
  | nil => simp at ht
  | cons u us =>
    show us.foldl (fun m v => Nat.min m v.length) u.length ≤ t.length
    rcases List.mem_cons.mp ht with rfl | ht
    · exact (foldl_minlen_facts us t.length).1
    · exact (foldl_minlen_facts us u.length).2 t ht

theorem le_maxLenOf {ts : List (List Char)} {t : List Char} (ht : t ∈ ts) :
    t.length ≤ maxLenOf ts :=
  (foldl_maxlen_facts ts 0).2 t ht

theorem range_reverse_map_succ {α : Type} (k : Nat) (f : Nat → α) :
    ((List.range (k + 1)).reverse).map f = f k :: ((List.range k).reverse).map f := by
  rw [List.range_succ, List.reverse_append, List.reverse_singleton,
    List.singleton_append, List.map_cons]

/-- One-step unfolding of the matcher on a consuming position. -/
theorem matchesSpecs_cons_cons (lo hi : Nat) (opt : Bool) (ps : List (Nat × Nat × Bool))
    (c : Char) (cs : List Char) :
    matchesSpecs ((lo, hi, opt) :: ps) (c :: cs) =
      ((c.isDigit && decide (lo ≤ dval c) && decide (dval c ≤ hi) && matchesSpecs ps cs)
        || (opt && matchesSpecs ps (c :: cs))) := rfl

/-- An optional position can be skipped. -/
theorem matchesSpecs_skip (lo hi : Nat) (ps : List (Nat × Nat × Bool)) (s : List Char)
    (h : matchesSpecs ps s = true) :
    matchesSpecs ((lo, hi, true) :: ps) s = true := by
  cases s with
  | nil =>
    show (false || (true && matchesSpecs ps [])) = true
    simp [h]
  | cons c cs =>
    rw [matchesSpecs_cons_cons]
    simp [h]

theorem posSpec_opt (ts : List (List Char)) (p : Nat) :
    (posSpec ts p).2.2 = decide (minLenOf ts ≤ p) := by
  unfold posSpec
  split <;> rfl

/-- Consuming phase: the last `j` digits of a member token are accepted by the
specs of positions `j-1 .. 0`. -/
theorem matches_consume (ts : List (List Char)) (t : List Char) (ht : t ∈ ts)
    (hdig : t.all (fun c => c.isDigit) = true) :
    ∀ j, j ≤ t.length →
      matchesSpecs (((List.range j).reverse).map (posSpec ts))
        (t.drop (t.length - j)) = true := by
  intro j
  induction j with
  | zero =>
    intro hj
    rw [Nat.sub_zero, List.drop_length]
    rfl
  | succ j ih =>
    intro hj
    have hj2 : j ≤ t.length := by omega
    have hlt : t.length - (j + 1) < t.length := by omega
    rw [range_reverse_map_succ, List.drop_eq_getElem_cons hlt,
      show t.length - (j + 1) + 1 = t.length - j from by omega]
    have hc : t[t.length - (j + 1)] ∈ t := List.getElem_mem _
    have hcd : (t[t.length - (j + 1)]).isDigit = true := List.all_eq_true.mp hdig _ hc
    have hmem : dval (t[t.length - (j + 1)]) ∈ digitsAtPos (revTokens ts) j := by
      have hjr : j < t.reverse.length := by
        rw [List.length_reverse]
        omega
      have hrev : t.reverse[j]? = some (t[t.length - (j + 1)]) := by
        rw [List.getElem?_reverse (by omega),
          show t.length - 1 - j = t.length - (j + 1) from by omega,
          List.getElem?_eq_getElem hlt]
      refine List.mem_filterMap.mpr ⟨t.reverse, List.mem_map_of_mem _ ht, ?_⟩
      rw [hrev]
      rfl
    rcases hda : digitsAtPos (revTokens ts) j with _ | ⟨d, ds⟩
    · rw [hda] at hmem
      simp at hmem
    · rw [hda] at hmem
      have hspec : posSpec ts j = (ds.foldl Nat.min d, ds.foldl Nat.max d,
          decide (minLenOf ts ≤ j)) := by
        unfold posSpec
        rw [hda]
      have hlo : ds.foldl Nat.min d ≤ dval (t[t.length - (j + 1)]) := by
        rcases List.mem_cons.mp hmem with hEq | hmem2
        · rw [hEq]
          exact (foldl_min_facts ds d).1
        · exact (foldl_min_facts ds d).2 _ hmem2
      have hhi : dval (t[t.length - (j + 1)]) ≤ ds.foldl Nat.max d := by
        rcases List.mem_cons.mp hmem with hEq | hmem2
        · rw [hEq]
          exact (foldl_max_facts ds d).1
        · exact (foldl_max_facts ds d).2 _ hmem2
      rw [hspec, matchesSpecs_cons_cons]
      have hrec := ih hj2
      rw [Bool.or_eq_true]
      left
      rw [Bool.and_eq_true, Bool.and_eq_true, Bool.and_eq_true]
      exact ⟨⟨⟨hcd, decide_eq_true hlo⟩, decide_eq_true hhi⟩, hrec⟩

/-- Every numeric alternative of a group matches the group's per-position
specs: optional high positions are skipped, the token's digits are consumed. -/
theorem matches_posSpecs (ts : List (List Char)) (t : List Char) (ht : t ∈ ts)
    (hnum : isNumericStr t = true) :
    matchesSpecs (posSpecs ts) t = true := by
  have hdig := numeric_all_digit hnum
  have hLM : t.length ≤ maxLenOf ts := le_maxLenOf ht
  have main : ∀ k, t.length ≤ k → k ≤ maxLenOf ts →
      matchesSpecs (((List.range k).reverse).map (posSpec ts)) t = true := by
    intro k
    induction k with
    | zero =>
      intro h1 h2
      have ht0 : t = [] := List.length_eq_zero.mp (by omega)
      rw [ht0]
      rfl
    | succ k ih =>
      intro h1 h2
      by_cases hk : t.length ≤ k
      · rw [range_reverse_map_succ]
        have hopt : (posSpec ts k).2.2 = true := by
          rw [posSpec_opt]
          simp only [decide_eq_true_eq]
          have := minLenOf_le ht
          omega
        rcases hps : posSpec ts k with ⟨lo, hi, opt⟩
        rw [hps] at hopt
        simp only at hopt
        subst hopt
        exact matchesSpecs_skip lo hi _ t (ih hk (by omega))
      · have := matches_consume ts t ht hdig (k + 1) (by omega)
        rw [show t.length - (k + 1) = 0 from by omega, List.drop_zero] at this
        exact this
  exact main (maxLenOf ts) hLM le_rfl

/-- C1 counterexample: the claim's universal — in *every* pattern containing a
primitive group of at least two pure-numeric alternatives, that group is
replaced by the per-digit-position expression — fails on the source.  In
`(1|2)(1|2|x)` both groups write the `repl`/`extra` dicts under the key `1|2`
(lines 92-93); the later group overwrites, so the replacement loop (line 134)
only ever searches for `(1|2|x)` and the primitive all-numeric group `(1|2)`
(third conjunct: it classifies as a qualifying candidate) is left verbatim in
the output — still uncompressed, as the second conjunct exhibits. -/
theorem compress_leaves_shadowed_numeric_group :
    compress_number_ranges "(1|2)(1|2|x)" = "(1|2)(([1-2])|(x))" ∧
    leadsWith "(1|2)".toList (compress_number_ranges "(1|2)(1|2|x)").toList = true ∧
    classify ("1|2".toList) = [⟨"1|2".toList, "1|2".toList, [], false⟩] := by
  refine ⟨by decide, by decide, by decide⟩

/-- C1 amended: when the pattern consists of exactly one primitive alternation
group of at least two pure-numeric alternatives — so that no other qualifying
group shadows its `repl` key — `compress_number_ranges` replaces the group by
the parenthesized per-digit-position expression: from the most significant
position down, a single digit when only one value occurs at that position and
the ascending bracket range `[min-max]` otherwise, with `?` on positions
absent from shorter alternatives (`generalizeGroup` / `renderSpecs` /
`posSpecs` are the source's emission loop).  Every original alternative is
still matched by the per-position expression.  In particular `(1|2|3)`
compresses to the single bracketed range `[1-3]` inside the group's
parentheses, and `(1|2|10)` compresses to `(1?[0-2])`, which still matches
`1`, `2` and `10` (third conjunct applied to each member). -/
theorem compress_numeric_group_spec (ts : List (List Char))
    (h2 : 2 ≤ ts.length) (hnum : ∀ t ∈ ts, isNumericStr t = true) :
    compressL ('(' :: (joinBar ts ++ [')'])) = generalizeGroup false ts ∧
    generalizeGroup false ts = '(' :: (renderSpecs (posSpecs ts) ++ [')']) ∧
    (∀ t ∈ ts, matchesSpecs (posSpecs ts) t = true) ∧
    compress_number_ranges "(1|2|3)" = "([1-3])" ∧
    renderSpecs (posSpecs [['1'], ['2'], ['3']]) = ['[', '1', '-', '3', ']'] ∧
    compress_number_ranges "(1|2|10)" = "(1?[0-2])" := by
  refine ⟨compress_single_numeric ts h2 hnum, rfl,
    fun t ht => matches_posSpecs ts t ht (hnum t ht), by decide, by decide, by decide⟩

theorem compress_numeric_group_spec_witness :
    compressL ('(' :: (joinBar [['1'], ['2'], ['1', '0']] ++ [')'])) =
      generalizeGroup false [['1'], ['2'], ['1', '0']] ∧
    matchesSpecs (posSpecs [['1'], ['2'], ['1', '0']]) ['1', '0'] = true :=
  ⟨(compress_numeric_group_spec [['1'], ['2'], ['1', '0']] (by decide) (by decide)).1,
   (compress_numeric_group_spec [['1'], ['2'], ['1', '0']] (by decide) (by decide)).2.2.1
     ['1', '0'] (by decide)⟩

end Regulator
